import Mathlib

/-!
Verification of the UAV deconfliction core (data model, trajectory
interpolation, spatial scan, temporal refinement, orchestrator) against its
specification.

Modelling conventions.
Python floats and `datetime` values are exact rationals (floats are dyadic
rationals, datetimes have microsecond resolution), so coordinates and
timestamps are modelled as `ℚ`; timestamps are seconds relative to an
arbitrary epoch.  The source compares Euclidean distances computed with
`math.sqrt` against a positive `safety_buffer`; since
`Real.sqrt d < b ↔ d < b ^ 2` for `0 < b` (proved below as
`dist_lt_iff_distSq_lt`), the executable pipeline uses the squared-distance
comparison, which is exact.  The waypoint-time back-fill of
`Mission.__init__` genuinely uses square roots of path lengths in its
arithmetic, so that part is modelled over `ℝ` (`backfillTime` and friends).
The `description` string of a `Conflict` is pure text formatting and is not
modelled; no claim constrains it.
-/

/-- A trajectory/mission waypoint after construction: in the source every
waypoint of a constructed `Mission` carries a concrete timestamp (the
constructor back-fills missing ones), so `time` is a plain rational here.
Mirrors `data_models.Waypoint` with a non-`None` time. -/
structure Waypoint where
  x : ℚ
  y : ℚ
  z : ℚ
  time : ℚ
deriving DecidableEq, Repr

instance : Inhabited Waypoint := ⟨⟨0, 0, 0, 0⟩⟩

/-- Squared Euclidean distance between two waypoints; the source's
`calculate_distance` / `Waypoint.distance_to` is `Real.sqrt` of this. -/
def distSq (a b : Waypoint) : ℚ :=
  (a.x - b.x) ^ 2 + (a.y - b.y) ^ 2 + (a.z - b.z) ^ 2

/-- The source's Euclidean distance (`math.sqrt(dx**2 + dy**2 + dz**2)`). -/
noncomputable def wpDist (a b : Waypoint) : ℝ :=
  Real.sqrt ((distSq a b : ℚ) : ℝ)

/-- For a positive buffer, the source's comparison
`sqrt(distSq) < buffer` coincides with the exact rational comparison
`distSq < buffer ^ 2` used by the executable pipeline below. -/
theorem dist_lt_iff_distSq_lt (a b : Waypoint) (buffer : ℚ) (hb : 0 < buffer) :
    wpDist a b < (buffer : ℝ) ↔ distSq a b < buffer ^ 2 := by
  unfold wpDist
  rw [Real.sqrt_lt' (by exact_mod_cast hb)]
  constructor
  · intro h
    exact_mod_cast h
  · intro h
    exact_mod_cast h

/-- The coordinate triple of a waypoint (its position, ignoring time). -/
def coordsOf (w : Waypoint) : ℚ × ℚ × ℚ := (w.x, w.y, w.z)

/-- A constructed mission as used by the pipeline: drone id, waypoints (all
carrying concrete times) and the overall window.  Mirrors
`data_models.Mission` after `__init__` has run. -/
structure Mission where
  drone_id : String
  waypoints : List Waypoint
  start_time : ℚ
  end_time : ℚ
deriving DecidableEq, Repr

/-- The segment search of `get_position_at_time` (lines 136-140): the first
consecutive pair `(wp1, wp2)` with `wp1.time ≤ q ≤ wp2.time`, if any. -/
def findSeg : List Waypoint → ℚ → Option (Waypoint × Waypoint)
  | a :: b :: rest, q =>
      if a.time ≤ q ∧ q ≤ b.time then some (a, b) else findSeg (b :: rest) q
  | _, _ => none

/-- Model of `trajectory_generation.get_position_at_time`: `none` outside
`[start_time, end_time]`; exact first/last waypoint at their own times
(checked in the source's order: last first, then first); otherwise linear
interpolation over the first bounding segment, with the
`segment_duration <= 0` branch returning `wp1`; if no bounding segment was
found, the last waypoint.  (The empty-waypoint case is a Python
`IndexError`; it is unreachable for constructed missions, which have at
least two waypoints.) -/
def get_position_at_time (m : Mission) (q : ℚ) : Option Waypoint :=
  match m.waypoints with
  | [] => none
  | w0 :: rest =>
    if ¬(m.start_time ≤ q ∧ q ≤ m.end_time) then none
    else
      let wlast := (w0 :: rest).getLast (by simp)
      if q = wlast.time then some wlast
      else if q = w0.time then some w0
      else
        match findSeg (w0 :: rest) q with
        | none => some wlast
        | some (w1, w2) =>
          let segd := w2.time - w1.time
          if segd ≤ 0 then some w1
          else
            let α := (q - w1.time) / segd
            some ⟨w1.x + α * (w2.x - w1.x), w1.y + α * (w2.y - w1.y),
                  w1.z + α * (w2.z - w1.z), q⟩

/-- Claim C9: the mission with exactly two waypoints `(0,0)` at `t0` and
`(100,0)` at `t0 + 300`, over the window `[t0, t0 + 300]`, queried at
`t0 + 150`, yields the coordinates `(50, 0)` (z = 0). -/
theorem position_at_midpoint_example (t0 : ℚ) :
    (get_position_at_time
        ⟨"D1", [⟨0, 0, 0, t0⟩, ⟨100, 0, 0, t0 + 300⟩], t0, t0 + 300⟩
        (t0 + 150)).map coordsOf = some (50, 0, 0) := by
  have h3 : ¬(t0 + 150 = t0 + 300) := by intro h; linarith
  have h4 : ¬(t0 + 150 = t0) := by intro h; linarith
  have hseg : ¬((t0 + 300 : ℚ) - t0 ≤ 0) := by push_neg; linarith
  simp only [get_position_at_time, findSeg, List.getLast]
  rw [if_neg (not_not_intro ⟨by linarith, by linarith⟩), if_neg h3, if_neg h4,
    if_pos ⟨by linarith, by linarith⟩]
  dsimp only
  rw [if_neg hseg]
  have e1 : (t0 + 150 - t0 : ℚ) = 150 := by ring
  have e2 : (t0 + 300 - t0 : ℚ) = 300 := by ring
  rw [e1, e2]
  norm_num [coordsOf, Prod.ext_iff]

/-- The cursor-advance loop of `interpolate_trajectory` (lines 51-53 and
88-90): `while idx + 1 < len(waypoints) and waypoints[idx+1].time <= t:
idx += 1`.  `fuel` bounds the recursion; with `fuel = length - idx` (as in
`advanceIdx`) it never runs out before the loop condition fails, so the
fuelled function is the while loop. -/
def advanceAux (wps : List Waypoint) (t : ℚ) : ℕ → ℕ → ℕ
  | idx, 0 => idx
  | idx, fuel + 1 =>
      if idx + 1 < wps.length ∧ (wps.getD (idx + 1) default).time ≤ t then
        advanceAux wps t (idx + 1) fuel
      else idx

/-- Cursor advance starting from `idx` with enough fuel. -/
def advanceIdx (wps : List Waypoint) (t : ℚ) (idx : ℕ) : ℕ :=
  advanceAux wps t idx (wps.length - idx)

/-- One sample of the main interpolation loop (lines 55-78), at time `t`
with the cursor already advanced to `idx`: at or past the last waypoint,
its coordinates; across a zero-duration segment, the later endpoint's
coordinates; otherwise linear interpolation. -/
def emitSample (wps : List Waypoint) (idx : ℕ) (t : ℚ) : Waypoint :=
  let w1 := wps.getD idx default
  if idx = wps.length - 1 then ⟨w1.x, w1.y, w1.z, t⟩
  else
    let w2 := wps.getD (idx + 1) default
    let segd := w2.time - w1.time
    if segd ≤ 0 then ⟨w2.x, w2.y, w2.z, t⟩
    else
      let α := (t - w1.time) / segd
      ⟨w1.x + α * (w2.x - w1.x), w1.y + α * (w2.y - w1.y),
       w1.z + α * (w2.z - w1.z), t⟩

/-- The main loop of `interpolate_trajectory` (lines 48-80) over a
precomputed list of sample times, threading the cursor. -/
def interpLoop (wps : List Waypoint) : ℕ → List ℚ → List Waypoint
  | _, [] => []
  | idx, t :: ts =>
      let idx' := advanceIdx wps t idx
      emitSample wps idx' t :: interpLoop wps idx' ts

/-- Number of iterations of `while current <= end: current += step` started
at `start`, for `step > 0`: none if `start > end`, else
`⌊(end - start)/step⌋ + 1`. -/
def sampleCount (s e step : ℚ) : ℕ :=
  if s ≤ e then (⌊(e - s) / step⌋).toNat + 1 else 0

/-- The sample times visited by the loop: `start + k * step`. -/
def sampleTimes (s e step : ℚ) : List ℚ :=
  (List.range (sampleCount s e step)).map (fun k : ℕ => s + (k : ℚ) * step)

/-- The closing fix-up of `interpolate_trajectory` (lines 38-42 and 82-107):
if the path is empty or its last sample is strictly before `end_time`,
append the precomputed final waypoint (whose time is `end_time`). -/
def finalFix (endT : ℚ) (finalWp : Waypoint) (path : List Waypoint) :
    List Waypoint :=
  match path.getLast? with
  | none => [finalWp]
  | some w => if w.time < endT then path ++ [finalWp] else path

/-- Model of `trajectory_generation.interpolate_trajectory`.  With fewer than two
waypoints the drone is pinned at the sole waypoint (or the output is empty);
otherwise the main loop samples every `step` seconds from `start_time`,
and the fix-up forces a final sample exactly at `end_time`.  The source
raises for `step ≤ 0`; every call site uses a positive step and the claims
hypothesise `0 < step`. -/
def interpolate_trajectory (m : Mission) (step : ℚ) : List Waypoint :=
  if m.waypoints.length < 2 then
    match m.waypoints with
    | [] => []
    | w :: _ =>
      finalFix m.end_time ⟨w.x, w.y, w.z, m.end_time⟩
        ((sampleTimes m.start_time m.end_time step).map
          (fun t => ⟨w.x, w.y, w.z, t⟩))
  else
    finalFix m.end_time
      (emitSample m.waypoints (advanceIdx m.waypoints m.end_time 0) m.end_time)
      (interpLoop m.waypoints 0 (sampleTimes m.start_time m.end_time step))

/-- Every sample emitted by the main loop carries the loop's current time. -/
theorem emitSample_time (wps : List Waypoint) (idx : ℕ) (t : ℚ) :
    (emitSample wps idx t).time = t := by
  unfold emitSample
  dsimp only
  split
  · rfl
  · split
    · rfl
    · rfl

/-- The main loop emits exactly one sample per sample time, in order. -/
theorem interpLoop_map_time (wps : List Waypoint) :
    ∀ (ts : List ℚ) (idx : ℕ),
      (interpLoop wps idx ts).map (fun w => w.time) = ts := by
  intro ts
  induction ts with
  | nil => intro idx; rfl
  | cons t ts ih =>
      intro idx
      simp [interpLoop, emitSample_time, ih]

/-- The sampling loop runs at least once when `start ≤ end`. -/
theorem sampleCount_pos (s e step : ℚ) (h : s ≤ e) :
    0 < sampleCount s e step := by
  unfold sampleCount
  rw [if_pos h]
  omega

/-- The first sample time is `start` (when the loop runs at all). -/
theorem sampleTimes_head (s e step : ℚ) (h : s ≤ e) :
    (sampleTimes s e step).head? = some s := by
  unfold sampleTimes
  obtain ⟨k, hk⟩ := Nat.exists_eq_succ_of_ne_zero (Nat.pos_iff_ne_zero.mp
    (sampleCount_pos s e step h))
  rw [hk, List.range_succ_eq_map, List.head?_map]
  simp

/-- Every sample time of the loop is at most `end` (loop guard
`current <= end`, exact arithmetic with `current = start + k * step`). -/
theorem sampleTimes_le (s e step : ℚ) (hstep : 0 < step) (h : s ≤ e) :
    ∀ u ∈ sampleTimes s e step, u ≤ e := by
  intro u hu
  unfold sampleTimes sampleCount at hu
  rw [if_pos h] at hu
  simp only [List.mem_map, List.mem_range] at hu
  obtain ⟨k, hk, rfl⟩ := hu
  have hfl : (0 : ℤ) ≤ ⌊(e - s) / step⌋ :=
    Int.le_floor.mpr (by
      simpa using div_nonneg (by linarith : (0:ℚ) ≤ e - s) (le_of_lt hstep))
  have hk' : (k : ℤ) ≤ ⌊(e - s) / step⌋ := by omega
  have : (k : ℚ) ≤ (e - s) / step := le_trans (by exact_mod_cast hk')
    (Int.floor_le _)
  have := (le_div_iff₀ hstep).mp this
  linarith

/-- The fix-up never yields an empty trajectory. -/
theorem finalFix_ne_nil (e : ℚ) (f : Waypoint) (path : List Waypoint) :
    finalFix e f path ≠ [] := by
  unfold finalFix
  cases hq : path.getLast? with
  | none => simp
  | some w =>
      by_cases hlt : w.time < e
      · simp [hlt]
      · simp only [hlt, if_false]
        intro hnil
        rw [hnil] at hq
        simp at hq

/-- The fix-up does not change the first sample of a non-empty path. -/
theorem finalFix_head? (e : ℚ) (f : Waypoint) (path : List Waypoint)
    (h : path ≠ []) : (finalFix e f path).head? = path.head? := by
  unfold finalFix
  cases hq : path.getLast? with
  | none => exact absurd (List.getLast?_eq_none_iff.mp hq) h
  | some w =>
      by_cases hlt : w.time < e
      · obtain ⟨p, ps, rfl⟩ := List.exists_cons_of_ne_nil h
        simp [hlt]
      · simp [hlt]

/-- After the fix-up the last sample's time is exactly `end_time`, provided
the appended waypoint has time `e` and all loop samples have time `≤ e`. -/
theorem finalFix_getLast_time (e : ℚ) (f : Waypoint) (path : List Waypoint)
    (hf : f.time = e) (hle : ∀ w ∈ path, w.time ≤ e) :
    ((finalFix e f path).getLast?).map (fun w => w.time) = some e := by
  unfold finalFix
  cases hq : path.getLast? with
  | none => simp [hf]
  | some w =>
      by_cases hlt : w.time < e
      · simp only [hlt, if_true]
        rw [List.getLast?_concat]
        simp [hf]
      · simp only [hlt, if_false]
        obtain ⟨hne, hw⟩ := List.mem_getLast?_eq_getLast hq
        have h1 : w.time ≤ e := hle _ (hw ▸ List.getLast_mem hne)
        rw [hq]
        simp [le_antisymm h1 (not_lt.mp hlt)]

/-- Claim C5: for a constructed mission (at least two waypoints,
`start_time < end_time`) and any positive step, the interpolated trajectory
is non-empty, its first sample's time is exactly `start_time`, and its last
sample's time is exactly `end_time`, regardless of step alignment. -/
theorem interpolate_endpoint_times (m : Mission) (step : ℚ)
    (hstep : 0 < step) (hlen : 2 ≤ m.waypoints.length)
    (hse : m.start_time < m.end_time) :
    interpolate_trajectory m step ≠ [] ∧
    (interpolate_trajectory m step).head?.map (fun w => w.time) =
      some m.start_time ∧
    (interpolate_trajectory m step).getLast?.map (fun w => w.time) =
      some m.end_time := by
  have hse' : m.start_time ≤ m.end_time := le_of_lt hse
  unfold interpolate_trajectory
  rw [if_neg (by omega : ¬ m.waypoints.length < 2)]
  have hmap : (interpLoop m.waypoints 0
      (sampleTimes m.start_time m.end_time step)).map (fun w => w.time) =
      sampleTimes m.start_time m.end_time step :=
    interpLoop_map_time m.waypoints _ 0
  have hpathne : interpLoop m.waypoints 0
      (sampleTimes m.start_time m.end_time step) ≠ [] := by
    intro hnil
    rw [hnil] at hmap
    have := sampleTimes_head m.start_time m.end_time step hse'
    rw [← hmap] at this
    simp at this
  refine ⟨finalFix_ne_nil _ _ _, ?_, ?_⟩
  · rw [finalFix_head? _ _ _ hpathne, ← List.head?_map, hmap,
      sampleTimes_head _ _ _ hse']
  · refine finalFix_getLast_time _ _ _ (emitSample_time _ _ _) ?_
    intro w hw
    refine sampleTimes_le m.start_time m.end_time step hstep hse' _ ?_
    rw [← hmap]
    exact List.mem_map_of_mem _ hw

/-- Witness for C5 at a concrete mission and a step that does not divide
the mission duration. -/
theorem interpolate_endpoint_times_witness :
    (0 : ℚ) < 3 ∧ 2 ≤ ([⟨0, 0, 0, 0⟩, ⟨6, 0, 0, 10⟩] : List Waypoint).length ∧
    (0 : ℚ) < 10 ∧
    (interpolate_trajectory ⟨"A", [⟨0, 0, 0, 0⟩, ⟨6, 0, 0, 10⟩], 0, 10⟩ 3 ≠ [] ∧
     (interpolate_trajectory ⟨"A", [⟨0, 0, 0, 0⟩, ⟨6, 0, 0, 10⟩], 0, 10⟩
         3).head?.map (fun w => w.time) = some 0 ∧
     (interpolate_trajectory ⟨"A", [⟨0, 0, 0, 0⟩, ⟨6, 0, 0, 10⟩], 0, 10⟩
         3).getLast?.map (fun w => w.time) = some 10) :=
  ⟨by decide, by decide, by decide,
   interpolate_endpoint_times ⟨"A", [⟨0, 0, 0, 0⟩, ⟨6, 0, 0, 10⟩], 0, 10⟩ 3
     (by decide) (by decide) (by decide)⟩

/-- Claim C6: for a mission whose waypoints span the window (first waypoint
at `start_time`, last at `end_time` — the constructor's documented
invariant), `get_position_at_time` is `none` exactly outside
`[start_time, end_time]`, and at the two boundary times it returns exactly
the first resp. last waypoint's coordinates. -/
theorem position_at_boundary (m : Mission)
    (hlen : 1 ≤ m.waypoints.length)
    (hhead : m.waypoints.head?.map (fun w => w.time) = some m.start_time)
    (hlast : m.waypoints.getLast?.map (fun w => w.time) = some m.end_time)
    (hse : m.start_time < m.end_time) :
    (∀ q, get_position_at_time m q = none ↔
      (q < m.start_time ∨ m.end_time < q)) ∧
    (get_position_at_time m m.start_time).map coordsOf =
      m.waypoints.head?.map coordsOf ∧
    (get_position_at_time m m.end_time).map coordsOf =
      m.waypoints.getLast?.map coordsOf := by
  obtain ⟨id, wps, s, e⟩ := m
  dsimp only at hlen hhead hlast hse ⊢
  cases wps with
  | nil => simp at hlen
  | cons w0 rest =>
      have hne : (w0 :: rest : List Waypoint) ≠ [] := by simp
      rw [List.getLast?_eq_getLast_of_ne_nil hne] at hlast
      simp only [List.head?_cons, Option.map_some] at hhead
      have hw0 : w0.time = s := by injection hhead
      have hwl : ((w0 :: rest).getLast hne).time = e := by
        simpa using hlast
      refine ⟨?_, ?_, ?_⟩
      · intro q
        by_cases hq : s ≤ q ∧ q ≤ e
        · simp only [get_position_at_time]
          rw [if_neg (not_not_intro hq)]
          constructor
          · intro hnone
            exfalso
            revert hnone
            split
            · simp
            · split
              · simp
              · cases hfs : findSeg (w0 :: rest) q with
                | none => simp
                | some pr =>
                    obtain ⟨w1, w2⟩ := pr
                    simp only [hfs]
                    split
                    · simp
                    · simp
          · intro hout
            rcases hout with h | h
            · exact absurd hq.1 (not_le.mpr h)
            · exact absurd hq.2 (not_le.mpr h)
        · simp only [get_position_at_time]
          rw [if_pos hq]
          simp only [true_iff]
          rcases not_and_or.mp hq with h | h
          · exact Or.inl (not_le.mp h)
          · exact Or.inr (not_le.mp h)
      · simp only [get_position_at_time]
        rw [if_neg (not_not_intro ⟨le_refl s, le_of_lt hse⟩)]
        rw [if_neg (by rw [hwl]; exact ne_of_lt hse)]
        rw [if_pos hw0.symm]
        simp
      · simp only [get_position_at_time]
        rw [if_neg (not_not_intro ⟨le_of_lt hse, le_refl e⟩)]
        rw [if_pos hwl.symm]
        rw [List.getLast?_eq_getLast_of_ne_nil hne]

/-- Witness for C6 at a concrete two-waypoint mission. -/
theorem position_at_boundary_witness :
    1 ≤ ([⟨0, 0, 0, 0⟩, ⟨4, 4, 0, 8⟩] : List Waypoint).length ∧
    (∀ q, get_position_at_time ⟨"B", [⟨0, 0, 0, 0⟩, ⟨4, 4, 0, 8⟩], 0, 8⟩ q =
        none ↔ (q < 0 ∨ 8 < q)) ∧
    (get_position_at_time ⟨"B", [⟨0, 0, 0, 0⟩, ⟨4, 4, 0, 8⟩], 0, 8⟩ 0).map
        coordsOf =
      ([⟨0, 0, 0, 0⟩, ⟨4, 4, 0, 8⟩] : List Waypoint).head?.map coordsOf ∧
    (get_position_at_time ⟨"B", [⟨0, 0, 0, 0⟩, ⟨4, 4, 0, 8⟩], 0, 8⟩ 8).map
        coordsOf =
      ([⟨0, 0, 0, 0⟩, ⟨4, 4, 0, 8⟩] : List Waypoint).getLast?.map coordsOf :=
  ⟨by decide,
   position_at_boundary ⟨"B", [⟨0, 0, 0, 0⟩, ⟨4, 4, 0, 8⟩], 0, 8⟩
     (by decide) (by decide) (by decide) (by decide)⟩

/-- Model of `spatial_check.check_spatial_proximity` (the Spatial Scanner): the full
cross product of the two sample lists, emitting `(p, s)` whenever the
temporal gap is under `safety_buffer * 2` seconds and the Euclidean
distance is under `safety_buffer` (as the exact rational comparison
`distSq < safety_buffer ^ 2`; see `dist_lt_iff_distSq_lt`).  The unused
mission-id parameters of the source are omitted. -/
def check_spatial_proximity (primary_trajectory simulated_trajectory :
    List Waypoint) (safety_buffer : ℚ) : List (Waypoint × Waypoint) :=
  primary_trajectory.flatMap (fun p =>
    (simulated_trajectory.filter (fun s =>
      decide (|p.time - s.time| < safety_buffer * 2 ∧
        distSq p s < safety_buffer ^ 2))).map (fun s => (p, s)))

/-- Claim C3: for a positive buffer, a pair `(p, s)` is emitted by the
Spatial Scanner iff `p` and `s` are samples of the respective trajectories,
their time gap is strictly below `buffer * 2` seconds, and their Euclidean
distance is strictly below `buffer`. -/
theorem spatial_candidates_iff (ptraj straj : List Waypoint)
    (buffer : ℚ) (hb : 0 < buffer) (p s : Waypoint) :
    (p, s) ∈ check_spatial_proximity ptraj straj buffer ↔
      p ∈ ptraj ∧ s ∈ straj ∧ |p.time - s.time| < buffer * 2 ∧
        wpDist p s < (buffer : ℝ) := by
  rw [show (wpDist p s < (buffer : ℝ)) ↔ (distSq p s < buffer ^ 2) from
    dist_lt_iff_distSq_lt p s buffer hb]
  unfold check_spatial_proximity
  simp only [List.mem_flatMap, List.mem_map, List.mem_filter,
    decide_eq_true_eq, Prod.mk.injEq]
  constructor
  · rintro ⟨a, ha, b, ⟨hb1, hb2, hb3⟩, rfl, rfl⟩
    exact ⟨ha, hb1, hb2, hb3⟩
  · rintro ⟨hp, hs, h1, h2⟩
    exact ⟨p, hp, s, ⟨hs, h1, h2⟩, rfl, rfl⟩

/-- Witness for C3 at two one-sample trajectories. -/
theorem spatial_candidates_iff_witness :
    (0 : ℚ) < 10 ∧
    (((⟨0, 0, 0, 0⟩ : Waypoint), (⟨1, 0, 0, 0⟩ : Waypoint)) ∈
        check_spatial_proximity [⟨0, 0, 0, 0⟩] [⟨1, 0, 0, 0⟩] 10 ↔
      (⟨0, 0, 0, 0⟩ : Waypoint) ∈ ([⟨0, 0, 0, 0⟩] : List Waypoint) ∧
      (⟨1, 0, 0, 0⟩ : Waypoint) ∈ ([⟨1, 0, 0, 0⟩] : List Waypoint) ∧
      |(⟨0, 0, 0, 0⟩ : Waypoint).time - (⟨1, 0, 0, 0⟩ : Waypoint).time| <
        10 * 2 ∧
      wpDist ⟨0, 0, 0, 0⟩ ⟨1, 0, 0, 0⟩ < ((10 : ℚ) : ℝ)) :=
  ⟨by decide, spatial_candidates_iff [⟨0, 0, 0, 0⟩] [⟨1, 0, 0, 0⟩] 10
    (by decide) ⟨0, 0, 0, 0⟩ ⟨1, 0, 0, 0⟩⟩

/-- The order used by Python's `sorted` on strings: lexicographic on the
code-point sequence.  Lean's builtin `String` order is the same order, but
its iterator-based decision procedure does not reduce in the kernel, so we
compare the underlying character lists directly. -/
def idLe (a b : String) : Prop := a.data ≤ b.data

instance : DecidableRel idLe :=
  fun a b => inferInstanceAs (Decidable (a.data ≤ b.data))

instance : IsTotal String idLe := ⟨fun a b => le_total a.data b.data⟩

instance : IsTrans String idLe :=
  ⟨fun _ _ _ hab hbc => le_trans (α := List Char) hab hbc⟩

/-- A detected conflict: `data_models.Conflict` without its `description`
field (pure text formatting, constrained by no claim). -/
structure Conflict where
  location : Waypoint
  time : ℚ
  conflicting_drone_ids : List String
deriving DecidableEq, Repr

/-- Model of `Conflict.__init__`: stores the deduplicated ids in ascending
lexicographic order (the source computes sorted-of-set of the id list). -/
def Conflict.make (location : Waypoint) (time : ℚ) (ids : List String) :
    Conflict :=
  ⟨location, time, List.insertionSort idLe ids.dedup⟩

/-- Model of `temporal_check.check_temporal_overlap_at_location` (the Temporal
Refiner).  The search walks
`[candidate_a.time - window, candidate_a.time + window]` clipped to both
missions' windows (start: max of the three lower bounds, end: min of the
three upper bounds) in 1-second steps from the clipped start, and returns
a Conflict at the first instant at which both `get_position_at_time`
results exist and are closer than `buffer`; the conflict's location is the
coordinate-wise midpoint at that instant, its time that instant, and its
ids the two drone ids (sorted and deduplicated by `Conflict.make`).  The
`candidate_b` argument is accepted but, as in the source, never read. -/
def refineInstants (lo hi : ℚ) : List ℚ :=
  (List.range (if lo ≤ hi then (⌊hi - lo⌋).toNat + 1 else 0)).map
    (fun k : ℕ => lo + (k : ℚ))

def check_temporal_overlap_at_location (primary_mission simulated_mission :
    Mission) (candidate_a candidate_b : Waypoint) (safety_buffer : ℚ)
    (window : ℚ) : Option Conflict :=
  let lo := max (max (candidate_a.time - window)
    primary_mission.start_time) simulated_mission.start_time
  let hi := min (min (candidate_a.time + window)
    primary_mission.end_time) simulated_mission.end_time
  (refineInstants lo hi).findSome? (fun t =>
    match get_position_at_time primary_mission t,
          get_position_at_time simulated_mission t with
    | some p, some s =>
        if distSq p s < safety_buffer ^ 2 then
          some (Conflict.make
            ⟨(p.x + s.x) / 2, (p.y + s.y) / 2, (p.z + s.z) / 2, t⟩ t
            [primary_mission.drone_id, simulated_mission.drone_id])
        else none
    | _, _ => none)

/-- Spec wording of the Refiner's per-instant test: both positions exist
and their distance is below the buffer. -/
def refineSpecCond (a b : Mission) (buffer : ℚ) (t : ℚ) : Bool :=
  match get_position_at_time a t, get_position_at_time b t with
  | some p, some s => decide (distSq p s < buffer ^ 2)
  | _, _ => false

/-- Spec wording of the Conflict built at a qualifying instant: location is
the coordinate-wise midpoint of the two positions at that instant, time is
that instant, ids are the two drone ids, sorted. -/
def refineSpecConflict (a b : Mission) (t : ℚ) : Conflict :=
  let p := (get_position_at_time a t).getD default
  let s := (get_position_at_time b t).getD default
  Conflict.make ⟨(p.x + s.x) / 2, (p.y + s.y) / 2, (p.z + s.z) / 2, t⟩ t
    [a.drone_id, b.drone_id]

/-- The Refiner as the spec states it: find the first qualifying instant of
the clipped, 1-second-resolution search interval (inclusive of the clipped
start), and return the Conflict built there; `none` if no instant
qualifies. -/
def refineSpec (a b : Mission) (candidate_a : Waypoint)
    (buffer window : ℚ) : Option Conflict :=
  let lo := max (max (candidate_a.time - window) a.start_time) b.start_time
  let hi := min (min (candidate_a.time + window) a.end_time) b.end_time
  ((refineInstants lo hi).find? (refineSpecCond a b buffer)).map
    (refineSpecConflict a b)

/-- Helper: `findSome?` with a step of the form `if p x then some (g x) else none`
is `find?` followed by the builder. -/
theorem findSome?_eq_find?_map {α β : Type} (f : α → Option β)
    (p : α → Bool) (g : α → β)
    (hf : ∀ x, f x = if p x then some (g x) else none) :
    ∀ l : List α, l.findSome? f = (l.find? p).map g := by
  intro l
  induction l with
  | nil => rfl
  | cons a l ih =>
      cases hpa : p a with
      | true =>
          have : f a = some (g a) := by rw [hf a, hpa, if_pos rfl]
          simp [List.findSome?_cons, List.find?_cons, this, hpa]
      | false =>
          have : f a = none := by rw [hf a, hpa]; rfl
          simp [List.findSome?_cons, List.find?_cons, this, hpa, ih]

/-- Claim C1: the Temporal Refiner behaves exactly as specified — it scans
the window `[candidate_a.time - window, candidate_a.time + window]` clipped
to both missions' active windows at 1-second resolution from the clipped
start inclusive, returns at the first instant where both positions exist
and are within `buffer` the Conflict with midpoint location, that instant
as time and the two sorted drone ids, and `none` if no instant qualifies. -/
theorem temporal_refine_eq_spec (a b : Mission) (ca cb : Waypoint)
    (buffer window : ℚ) :
    check_temporal_overlap_at_location a b ca cb buffer window =
      refineSpec a b ca buffer window := by
  unfold check_temporal_overlap_at_location refineSpec
  apply findSome?_eq_find?_map
  intro t
  cases hpa : get_position_at_time a t with
  | none => simp [refineSpecCond, hpa]
  | some p =>
      cases hpb : get_position_at_time b t with
      | none => simp [refineSpecCond, hpa, hpb]
      | some s =>
          by_cases hd : distSq p s < buffer ^ 2
          · simp [refineSpecCond, refineSpecConflict, hpa, hpb, hd]
          · simp [refineSpecCond, refineSpecConflict, hpa, hpb, hd]

/-- Verdict status; the source uses the strings "clear" and
"conflict detected". -/
inductive VerifyStatus where
  | clear : VerifyStatus
  | conflictDetected : VerifyStatus
deriving DecidableEq, Repr

/-- The dictionary returned by `DeconflictionSystem.verify_mission`
(status plus `conflict_details`). -/
structure VerifyResult where
  status : VerifyStatus
  conflict_details : List Conflict
deriving DecidableEq, Repr

/-- Model of `deconfliction_system.DeconflictionSystem`: reference missions and the
safety buffer.  The source also precomputes each reference trajectory once
into a dict keyed by drone id; for distinct drone ids (the intended usage)
that cache is exactly `interpolate_trajectory` of each mission with the
default 1-second step, which is what `verify_mission` below uses. -/
structure DeconflictionSystem where
  simulated_missions : List Mission
  safety_buffer : ℚ

/-- Model of `DeconflictionSystem.verify_mission`: interpolate the primary once,
then for each reference mission run the Scanner and refine every candidate
pair (default 5-second window), collecting all non-null Conflicts; status
is `conflictDetected` iff any were collected. -/
def verify_mission (sys : DeconflictionSystem) (primary_mission : Mission) :
    VerifyResult :=
  let primary_trajectory := interpolate_trajectory primary_mission 1
  let detected := sys.simulated_missions.flatMap (fun sm =>
    (check_spatial_proximity primary_trajectory
        (interpolate_trajectory sm 1) sys.safety_buffer).filterMap
      (fun c => check_temporal_overlap_at_location primary_mission sm
        c.1 c.2 sys.safety_buffer 5))
  if detected.isEmpty then ⟨VerifyStatus.clear, []⟩
  else ⟨VerifyStatus.conflictDetected, detected⟩

/-- Claim C4: the verdict status is `conflictDetected` exactly when the
returned conflict list is non-empty (else `clear`), and a system with no
reference missions always returns a clear verdict with no conflicts. -/
theorem verify_status_iff :
    (∀ (sys : DeconflictionSystem) (pm : Mission),
      ((verify_mission sys pm).status = VerifyStatus.conflictDetected ↔
        (verify_mission sys pm).conflict_details ≠ [])) ∧
    (∀ (buffer : ℚ) (pm : Mission),
      verify_mission ⟨[], buffer⟩ pm = ⟨VerifyStatus.clear, []⟩) := by
  constructor
  · intro sys pm
    unfold verify_mission
    dsimp only
    split
    · next h =>
        simp
    · next h =>
        simp only [ne_eq]
        constructor
        · intro _
          intro hnil
          rw [List.isEmpty_iff.mpr hnil] at h
          exact h rfl
        · intro _
          trivial
  · intro buffer pm
    rfl

/-- A successful `findSome?` comes from some element of the list. -/
theorem exists_of_findSome?_eq_some {α β : Type} (f : α → Option β) (b : β) :
    ∀ l : List α, l.findSome? f = some b → ∃ a ∈ l, f a = some b := by
  intro l
  induction l with
  | nil => intro h; simp [List.findSome?] at h
  | cons a l ih =>
      intro h
      rw [List.findSome?_cons] at h
      cases hfa : f a with
      | some c =>
          rw [hfa] at h
          dsimp only at h
          exact ⟨a, List.mem_cons_self a l, by rw [hfa]; exact h⟩
      | none =>
          rw [hfa] at h
          dsimp only at h
          obtain ⟨x, hx, hfx⟩ := ih h
          exact ⟨x, List.mem_cons_of_mem a hx, hfx⟩

/-- Every Conflict the Refiner returns was built by `Conflict.make` from
the two missions' drone ids. -/
theorem check_temporal_eq_make (a b : Mission) (ca cb : Waypoint)
    (buffer window : ℚ) (c : Conflict)
    (h : check_temporal_overlap_at_location a b ca cb buffer window =
      some c) :
    ∃ loc t, c = Conflict.make loc t [a.drone_id, b.drone_id] := by
  unfold check_temporal_overlap_at_location at h
  obtain ⟨t, _, hft⟩ := exists_of_findSome?_eq_some _ _ _ h
  revert hft
  cases hpa : get_position_at_time a t with
  | none => intro hft; simp at hft
  | some p =>
      cases hpb : get_position_at_time b t with
      | none => intro hft; simp at hft
      | some s =>
          intro hft
          dsimp only at hft
          by_cases hd : distSq p s < buffer ^ 2
          · rw [if_pos hd] at hft
            exact ⟨_, _, (Option.some.inj hft).symm⟩
          · rw [if_neg hd] at hft
            simp at hft

/-- Ids stored by `Conflict.make` are sorted and duplicate-free. -/
theorem make_ids_sorted_nodup (loc : Waypoint) (t : ℚ) (ids : List String) :
    (Conflict.make loc t ids).conflicting_drone_ids.Sorted idLe ∧
      (Conflict.make loc t ids).conflicting_drone_ids.Nodup :=
  ⟨List.sorted_insertionSort idLe ids.dedup,
   (List.perm_insertionSort idLe ids.dedup).symm.nodup (List.nodup_dedup ids)⟩

/-- Claim C8: a Conflict built from any id list stores exactly the distinct
input ids, sorted ascending (lexicographically); and every Conflict the
orchestrator ever returns has sorted, duplicate-free ids. -/
theorem conflict_ids_sorted_nodup :
    (∀ (loc : Waypoint) (t : ℚ) (ids : List String),
      (Conflict.make loc t ids).conflicting_drone_ids.Sorted idLe ∧
      (Conflict.make loc t ids).conflicting_drone_ids.Nodup ∧
      ∀ x, x ∈ (Conflict.make loc t ids).conflicting_drone_ids ↔ x ∈ ids) ∧
    (∀ (sys : DeconflictionSystem) (pm : Mission),
      (verify_mission sys pm).conflict_details.Forall
        (fun c => c.conflicting_drone_ids.Sorted idLe ∧
          c.conflicting_drone_ids.Nodup)) := by
  constructor
  · intro loc t ids
    refine ⟨(make_ids_sorted_nodup loc t ids).1,
      (make_ids_sorted_nodup loc t ids).2, ?_⟩
    intro x
    unfold Conflict.make
    rw [(List.perm_insertionSort idLe ids.dedup).mem_iff, List.mem_dedup]
  · intro sys pm
    rw [List.forall_iff_forall_mem]
    intro c hc
    unfold verify_mission at hc
    dsimp only at hc
    by_cases hemp : (sys.simulated_missions.flatMap fun sm =>
        List.filterMap (fun cd => check_temporal_overlap_at_location pm sm
          cd.1 cd.2 sys.safety_buffer 5)
          (check_spatial_proximity (interpolate_trajectory pm 1)
            (interpolate_trajectory sm 1) sys.safety_buffer)).isEmpty
    · rw [if_pos hemp] at hc
      simp at hc
    · rw [if_neg hemp] at hc
      dsimp only at hc
      rw [List.mem_flatMap] at hc
      obtain ⟨sm, _, hcmem⟩ := hc
      rw [List.mem_filterMap] at hcmem
      obtain ⟨cand, _, hck⟩ := hcmem
      obtain ⟨loc, t, rfl⟩ :=
        check_temporal_eq_make pm sm cand.1 cand.2 sys.safety_buffer 5 c hck
      exact make_ids_sorted_nodup loc t _

/-- Counterexample to claim C7 (position_at half): in the mission with
waypoints `(0,0,0)@0, (10,0,0)@5, (20,0,0)@5, (30,0,0)@10` the pair at
indices 1 and 2 is a zero-duration segment at `t = 5`; the claim says a
query at `t = 5` yields the later waypoint's coordinates `(20,0,0)`, but
`get_position_at_time` selects the first bounding segment (indices 0-1)
and interpolates with `alpha = 1`, yielding the earlier waypoint's
coordinates `(10,0,0)`. -/
theorem position_at_zero_duration_counterexample :
    (get_position_at_time
        ⟨"D", [⟨0, 0, 0, 0⟩, ⟨10, 0, 0, 5⟩, ⟨20, 0, 0, 5⟩, ⟨30, 0, 0, 10⟩],
         0, 10⟩ 5).map coordsOf = some (10, 0, 0) ∧
    coordsOf ⟨20, 0, 0, 5⟩ = (20, 0, 0) ∧
    ((10 : ℚ), (0 : ℚ), (0 : ℚ)) ≠ ((20 : ℚ), 0, 0) := by
  refine ⟨?_, rfl, by decide⟩
  norm_num [get_position_at_time, findSeg, coordsOf, List.getLast,
    Prod.ext_iff]

/-- Defaulted indexing at an in-range index is `get`. -/
theorem getD_eq_get (l : List Waypoint) (n : ℕ) (h : n < l.length) :
    l.getD n default = l.get ⟨n, h⟩ := by
  simp [List.getD_eq_getElem?_getD, List.getElem?_eq_getElem h,
    List.get_eq_getElem]

/-- Waypoint times that are non-decreasing consecutively are monotone in
the index. -/
theorem time_mono_of_chain (wps : List Waypoint)
    (h : (wps.map (fun w => w.time)).Chain' (· ≤ ·)) :
    ∀ k l : ℕ, k ≤ l → l < wps.length →
      (wps.getD k default).time ≤ (wps.getD l default).time := by
  intro k l hkl hl
  rcases eq_or_lt_of_le hkl with rfl | hkl'
  · exact le_refl _
  · have hp : (wps.map (fun w => w.time)).Pairwise (· ≤ ·) :=
      List.chain'_iff_pairwise.mp h
    rw [List.pairwise_iff_get] at hp
    have hk : k < wps.length := lt_trans hkl' hl
    have hmain := hp ⟨k, by simpa using hk⟩ ⟨l, by simpa using hl⟩
      (by simpa using hkl')
    rw [List.get_map, List.get_map] at hmain
    rw [getD_eq_get _ _ hk, getD_eq_get _ _ hl]
    exact hmain

/-- The cursor either stays put or lands on an index whose waypoint time
is at most the current sample time. -/
theorem advanceAux_invariant (wps : List Waypoint) (t : ℚ) :
    ∀ (fuel idx : ℕ), advanceAux wps t idx fuel = idx ∨
      (advanceAux wps t idx fuel < wps.length ∧
       (wps.getD (advanceAux wps t idx fuel) default).time ≤ t) := by
  intro fuel
  induction fuel with
  | zero => intro idx; left; rfl
  | succ fuel ih =>
      intro idx
      simp only [advanceAux]
      by_cases hc : idx + 1 < wps.length ∧
          (wps.getD (idx + 1) default).time ≤ t
      · rw [if_pos hc]
        rcases ih (idx + 1) with heq | hprop
        · rw [heq]
          exact Or.inr ⟨hc.1, hc.2⟩
        · exact Or.inr hprop
      · rw [if_neg hc]
        exact Or.inl rfl

/-- Same statement for `advanceIdx`. -/
theorem advanceIdx_invariant (wps : List Waypoint) (t : ℚ) (idx : ℕ) :
    advanceIdx wps t idx = idx ∨
      (advanceIdx wps t idx < wps.length ∧
       (wps.getD (advanceIdx wps t idx) default).time ≤ t) :=
  advanceAux_invariant wps t (wps.length - idx) idx

/-- At the shared timestamp `t` of a maximal zero-duration segment
`(i, i+1)` (with a strictly later waypoint following), the cursor advances
to exactly `i + 1` from any start at most `i + 1`. -/
theorem advanceAux_reach (wps : List Waypoint) (t : ℚ) (i : ℕ)
    (hmono : ∀ k l : ℕ, k ≤ l → l < wps.length →
      (wps.getD k default).time ≤ (wps.getD l default).time)
    (hi2 : i + 2 < wps.length)
    (hti1 : (wps.getD (i + 1) default).time = t)
    (hnext : t < (wps.getD (i + 2) default).time) :
    ∀ (fuel idx : ℕ), idx + fuel = wps.length → idx ≤ i + 1 →
      advanceAux wps t idx fuel = i + 1 := by
  intro fuel
  induction fuel with
  | zero => intro idx hfl hle; omega
  | succ fuel ih =>
      intro idx hfl hle
      simp only [advanceAux]
      by_cases heq : idx = i + 1
      · subst heq
        rw [if_neg (by
          intro hc
          exact absurd hc.2 (not_le.mpr hnext))]
      · have hlt : idx < i + 1 := lt_of_le_of_ne hle heq
        have hcond : idx + 1 < wps.length ∧
            (wps.getD (idx + 1) default).time ≤ t := by
          refine ⟨by omega, ?_⟩
          rw [← hti1]
          exact hmono (idx + 1) (i + 1) (by omega) (by omega)
        rw [if_pos hcond]
        exact ih (idx + 1) (by omega) (by omega)

/-- The `advanceIdx` form of `advanceAux_reach`. -/
theorem advanceIdx_reach (wps : List Waypoint) (t : ℚ) (i : ℕ)
    (hmono : ∀ k l : ℕ, k ≤ l → l < wps.length →
      (wps.getD k default).time ≤ (wps.getD l default).time)
    (hi2 : i + 2 < wps.length)
    (hti1 : (wps.getD (i + 1) default).time = t)
    (hnext : t < (wps.getD (i + 2) default).time)
    (idx : ℕ) (hle : idx ≤ i + 1) :
    advanceIdx wps t idx = i + 1 :=
  advanceAux_reach wps t i hmono hi2 hti1 hnext (wps.length - idx) idx
    (by omega) hle

/-- The sample emitted with the cursor at `i + 1` at the shared timestamp
takes waypoint `i + 1`'s coordinates (interpolation factor 0 on the
following, strictly positive segment). -/
theorem emitSample_shared (wps : List Waypoint) (t : ℚ) (i : ℕ)
    (hi2 : i + 2 < wps.length)
    (hti1 : (wps.getD (i + 1) default).time = t)
    (hnext : t < (wps.getD (i + 2) default).time) :
    coordsOf (emitSample wps (i + 1) t) =
      coordsOf (wps.getD (i + 1) default) := by
  unfold emitSample
  dsimp only
  rw [if_neg (by omega : ¬ i + 1 = wps.length - 1)]
  have hseg : ¬((wps.getD (i + 1 + 1) default).time -
      (wps.getD (i + 1) default).time ≤ 0) := by
    push_neg
    rw [hti1]
    exact sub_pos.mpr hnext
  rw [if_neg hseg]
  unfold coordsOf
  rw [hti1]
  simp [sub_self, zero_div, zero_mul, add_zero]

/-- Every sample that the main loop produces at time `t` (the shared
timestamp) carries waypoint `i + 1`'s coordinates, provided the sample
times are processed in non-decreasing order and the incoming cursor is
compatible with the first processed time. -/
theorem interpLoop_at_shared (wps : List Waypoint) (t : ℚ) (i : ℕ)
    (hmono : ∀ k l : ℕ, k ≤ l → l < wps.length →
      (wps.getD k default).time ≤ (wps.getD l default).time)
    (hi2 : i + 2 < wps.length)
    (hti1 : (wps.getD (i + 1) default).time = t)
    (hnext : t < (wps.getD (i + 2) default).time) :
    ∀ (ts : List ℚ) (idx : ℕ), ts.Pairwise (· ≤ ·) →
      (∀ u ∈ ts, idx = 0 ∨ (idx < wps.length ∧
        (wps.getD idx default).time ≤ u)) →
      ∀ w ∈ interpLoop wps idx ts, w.time = t →
        coordsOf w = coordsOf (wps.getD (i + 1) default) := by
  intro ts
  induction ts with
  | nil => intro idx _ _ w hw; simp [interpLoop] at hw
  | cons u us ih =>
      intro idx hpw hpre w hw hwt
      simp only [interpLoop] at hw
      rcases List.mem_cons.mp hw with heq | hmem
      · have hut : u = t := by
          rw [← hwt, heq, emitSample_time]
        subst hut
        have hidx : idx ≤ i + 1 := by
          rcases hpre u (List.mem_cons_self u us) with h0 | ⟨hlt, hle⟩
          · omega
          · by_contra hgt
            push_neg at hgt
            have h1 := hmono (i + 2) idx (by omega) hlt
            have h2 := le_trans h1 hle
            exact absurd h2 (not_le.mpr hnext)
        rw [heq, advanceIdx_reach wps u i hmono hi2 hti1 hnext idx hidx]
        exact emitSample_shared wps u i hi2 hti1 hnext
      · refine ih (advanceIdx wps u idx) hpw.of_cons ?_ w hmem hwt
        intro u' hu'
        rcases advanceIdx_invariant wps u idx with heq2 | ⟨hlt2, hle2⟩
        · rw [heq2]
          exact hpre u' (List.mem_cons_of_mem u hu')
        · exact Or.inr ⟨hlt2,
            le_trans hle2 (List.rel_of_pairwise_cons hpw hu')⟩

/-- The sample times are produced in non-decreasing order. -/
theorem sampleTimes_pairwise (s e step : ℚ) (hstep : 0 < step) :
    (sampleTimes s e step).Pairwise (· ≤ ·) := by
  unfold sampleTimes
  rw [List.pairwise_map]
  refine (List.pairwise_lt_range _).imp ?_
  intro a b hab
  have hc : (a : ℚ) ≤ (b : ℚ) := by exact_mod_cast le_of_lt hab
  have := mul_le_mul_of_nonneg_right hc (le_of_lt hstep)
  linarith

/-- Membership through the fix-up: a sample is a loop sample or the
appended final waypoint. -/
theorem finalFix_mem (e : ℚ) (f : Waypoint) (path : List Waypoint)
    (w : Waypoint) (hw : w ∈ finalFix e f path) : w ∈ path ∨ w = f := by
  unfold finalFix at hw
  revert hw
  cases hq : path.getLast? with
  | none =>
      intro hw
      right
      simpa using hw
  | some wl =>
      dsimp only
      by_cases hlt : wl.time < e
      · rw [if_pos hlt]
        intro hw
        rcases List.mem_append.mp hw with h | h
        · exact Or.inl h
        · right; simpa using h
      · rw [if_neg hlt]
        exact fun hw => Or.inl hw

/-- The first bounding segment found by the `get_position_at_time` loop:
if segment `(j, j+1)` bounds `q` and every earlier segment's right
endpoint is strictly before `q`, the search returns segment `(j, j+1)`. -/
theorem findSeg_first :
    ∀ (wps : List Waypoint) (q : ℚ) (j : ℕ), j + 1 < wps.length →
      (wps.getD j default).time ≤ q →
      q ≤ (wps.getD (j + 1) default).time →
      (∀ k, k < j → (wps.getD (k + 1) default).time < q) →
      findSeg wps q = some (wps.getD j default, wps.getD (j + 1) default) := by
  intro wps
  induction wps with
  | nil => intro q j hj; simp at hj
  | cons a tail ih =>
      intro q j hj h1 h2 hfirst
      cases tail with
      | nil => simp at hj
      | cons b rest =>
          cases j with
          | zero =>
              simp only [List.getD_cons_zero, List.getD_cons_succ] at h1 h2 ⊢
              simp only [findSeg]
              rw [if_pos ⟨h1, h2⟩]
          | succ j' =>
              have hb : b.time < q := by
                have := hfirst 0 (Nat.succ_pos j')
                simpa using this
              simp only [findSeg]
              rw [if_neg (by
                intro hc
                exact absurd hc.2 (not_le.mpr hb))]
              have hrec := ih q j'
                (by simp at hj ⊢; omega)
                (by simpa [List.getD_cons_succ] using h1)
                (by simpa [List.getD_cons_succ] using h2)
                (by
                  intro k hk
                  have := hfirst (k + 1) (by omega)
                  simpa [List.getD_cons_succ] using this)
              rw [hrec]
              simp [List.getD_cons_succ]

/-- Claim C7 (amended): for a mission (sorted waypoint times spanning the
window) with an interior zero-duration segment at indices `(i, i+1)` sharing
timestamp `t` (strictly later waypoint following, strictly earlier one
preceding or `i = 0`), a trajectory sample at `t` takes the LATER waypoint's
(`i+1`) coordinates, but `get_position_at_time` at `t` yields the EARLIER
waypoint's (`i`) coordinates: the segment search selects the first bounding
segment, which ends at waypoint `i`, and interpolates with factor 1 (and the
`segment_duration <= 0` branch of the source returns `wp1`, the earlier
endpoint, not the later one as claimed). -/
theorem zero_duration_segment_behavior (m : Mission) (i : ℕ) (t : ℚ)
    (hchain : (m.waypoints.map (fun w => w.time)).Chain' (· ≤ ·))
    (hhead : m.waypoints.head?.map (fun w => w.time) = some m.start_time)
    (hlast : m.waypoints.getLast?.map (fun w => w.time) = some m.end_time)
    (hi2 : i + 2 < m.waypoints.length)
    (hti : (m.waypoints.getD i default).time = t)
    (hti1 : (m.waypoints.getD (i + 1) default).time = t)
    (hprev : i = 0 ∨ (m.waypoints.getD (i - 1) default).time < t)
    (hnext : t < (m.waypoints.getD (i + 2) default).time) :
    (get_position_at_time m t).map coordsOf =
      some (coordsOf (m.waypoints.getD i default)) ∧
    ∀ step : ℚ, 0 < step → ∀ w ∈ interpolate_trajectory m step,
      w.time = t → coordsOf w = coordsOf (m.waypoints.getD (i + 1) default) := by
  obtain ⟨id, wps, s, e⟩ := m
  dsimp only at hchain hhead hlast hi2 hti hti1 hprev hnext ⊢
  have hmono := time_mono_of_chain wps hchain
  cases wps with
  | nil => simp at hi2
  | cons w0 rest =>
      have hgd0 : ((w0 :: rest).getD 0 default) = w0 := List.getD_cons_zero
      have hw0 : w0.time = s := by simpa using hhead
      have hne : (w0 :: rest : List Waypoint) ≠ [] := by simp
      have hwl : ((w0 :: rest).getLast hne).time = e := by
        rw [List.getLast?_eq_getLast_of_ne_nil hne] at hlast
        simpa using hlast
      have hlast_getD : (w0 :: rest).getD ((w0 :: rest).length - 1) default =
          (w0 :: rest).getLast hne := by
        rw [List.getLast_eq_get]
        exact getD_eq_get _ _ (by simp)
      have hst : s ≤ t := by
        have h5 := hmono 0 i (Nat.zero_le i) (by omega)
        rw [hgd0, hti] at h5
        rw [← hw0]
        exact h5
      have hte : t < e := by
        have h1 := hmono (i + 2) ((w0 :: rest).length - 1) (by omega)
          (by omega)
        rw [hlast_getD, hwl] at h1
        exact lt_of_lt_of_le hnext h1
      constructor
      · simp only [get_position_at_time]
        rw [if_neg (not_not_intro ⟨hst, le_of_lt hte⟩)]
        split
        · next h1 =>
            exact absurd (h1.trans hwl) (ne_of_lt hte)
        · next h1 =>
            split
            · next h2 =>
                rcases Nat.eq_zero_or_pos i with hi0 | hipos
                · subst hi0
                  simp [hgd0]
                · rcases hprev with h0 | hstrict
                  · omega
                  · have hlt0 : w0.time < t := by
                      have h5 := hmono 0 (i - 1) (Nat.zero_le _) (by omega)
                      rw [hgd0] at h5
                      exact lt_of_le_of_lt h5 hstrict
                    rw [h2] at hlt0
                    exact absurd hlt0 (lt_irrefl _)
            · next h2 =>
                rcases Nat.eq_zero_or_pos i with hi0 | hipos
                · exfalso
                  subst hi0
                  rw [hgd0] at hti
                  exact h2 hti.symm
                · obtain ⟨j, rfl⟩ : ∃ j, i = j + 1 := ⟨i - 1, by omega⟩
                  rcases hprev with h0 | hstrict
                  · omega
                  · have hstrict' : ((w0 :: rest).getD j default).time < t := by
                      simpa using hstrict
                    have hfs := findSeg_first (w0 :: rest) t j (by omega)
                      (le_of_lt hstrict')
                      (le_of_eq hti.symm)
                      (by
                        intro k hk
                        have h6 := hmono (k + 1) j (by omega) (by omega)
                        exact lt_of_le_of_lt h6 hstrict')
                    rw [hfs]
                    dsimp only
                    have hsub : ¬(((w0 :: rest).getD (j + 1) default).time -
                        ((w0 :: rest).getD j default).time ≤ 0) := by
                      push_neg
                      rw [hti]
                      exact sub_pos.mpr hstrict'
                    rw [if_neg hsub]
                    rw [hti, div_self (sub_ne_zero.mpr (ne_of_gt hstrict'))]
                    have hfix : ∀ a b : ℚ, a + 1 * (b - a) = b :=
                      fun a b => by ring
                    simp [coordsOf, hfix]
      · intro step hstep w hw hwt
        unfold interpolate_trajectory at hw
        rw [if_neg (by simp at hi2 ⊢; omega :
          ¬ (w0 :: rest : List Waypoint).length < 2)] at hw
        rcases finalFix_mem _ _ _ _ hw with hmem | heqf
        · exact interpLoop_at_shared (w0 :: rest) t i hmono hi2 hti1 hnext
            (sampleTimes s e step) 0 (sampleTimes_pairwise s e step hstep)
            (fun u _ => Or.inl rfl) w hmem hwt
        · exfalso
          rw [heqf, emitSample_time] at hwt
          exact absurd hwt (ne_of_gt hte)

/-- A mission with an interior zero-duration segment (indices 1 and 2 share
timestamp 5). -/
def zeroDurMission : Mission :=
  ⟨"D", [⟨0, 0, 0, 0⟩, ⟨10, 0, 0, 5⟩, ⟨20, 0, 0, 5⟩, ⟨30, 0, 0, 10⟩], 0, 10⟩

/-- Witness for the amended C7 at `zeroDurMission`, `i = 1`, `t = 5`. -/
theorem zero_duration_segment_behavior_witness :
    (zeroDurMission.waypoints.map (fun w => w.time)).Chain' (· ≤ ·) ∧
    zeroDurMission.waypoints.head?.map (fun w => w.time) =
      some zeroDurMission.start_time ∧
    1 + 2 < zeroDurMission.waypoints.length ∧
    ((get_position_at_time zeroDurMission 5).map coordsOf =
        some (coordsOf (zeroDurMission.waypoints.getD 1 default)) ∧
      ∀ step : ℚ, 0 < step →
        ∀ w ∈ interpolate_trajectory zeroDurMission step,
          w.time = 5 →
            coordsOf w =
              coordsOf (zeroDurMission.waypoints.getD (1 + 1) default)) :=
  ⟨by norm_num [zeroDurMission, List.chain'_cons], by decide, by decide,
   zero_duration_segment_behavior zeroDurMission 1 5
     (by norm_num [zeroDurMission, List.chain'_cons]) (by decide)
     (by decide) (by decide) (by decide) (by decide) (Or.inr (by decide))
     (by decide)⟩

/-- A waypoint as passed to the `Mission` constructor
(`data_models.Waypoint`): the timestamp is optional. -/
structure WaypointIn where
  x : ℚ
  y : ℚ
  z : ℚ
  time : Option ℚ
deriving DecidableEq, Repr

instance : Inhabited WaypointIn := ⟨⟨0, 0, 0, none⟩⟩

/-- Squared Euclidean distance of constructor-input waypoints. -/
def distSqIn (a b : WaypointIn) : ℚ :=
  (a.x - b.x) ^ 2 + (a.y - b.y) ^ 2 + (a.z - b.z) ^ 2

/-- Model of `Waypoint.distance_to`: the exact Euclidean distance, a real number
(the back-fill feeds these square roots into its time arithmetic). -/
noncomputable def distIn (a b : WaypointIn) : ℝ :=
  Real.sqrt ((distSqIn a b : ℚ) : ℝ)

/-- Cumulative path distance over the first `i` segments
(`current_distance` in `_assign_waypoint_times_if_needed`). -/
noncomputable def cumDist (wps : List WaypointIn) : ℕ → ℝ
  | 0 => 0
  | i + 1 => cumDist wps i +
      distIn (wps.getD i default) (wps.getD (i + 1) default)

/-- The source's `total_path_distance`: the sum over all `length - 1` segments. -/
noncomputable def totalDist (wps : List WaypointIn) : ℝ :=
  cumDist wps (wps.length - 1)

open Classical in
/-- The time `_assign_waypoint_times_if_needed` assigns to waypoint `i`
when the back-fill runs: the final waypoint is forced to `end_time`
(line 105); with zero total path length times are spread evenly by index
(guarding `len > 1`); otherwise waypoint 0 gets `start_time` and waypoint
`i` gets `start_time + duration * (cumulative distance fraction)`. -/
noncomputable def backfillTime (wps : List WaypointIn) (s e : ℚ) (i : ℕ) :
    ℝ :=
  if i = wps.length - 1 then (e : ℝ)
  else if totalDist wps = 0 then
    (s : ℝ) + ((e : ℝ) - (s : ℝ)) *
      (if wps.length ≤ 1 then 0 else (i : ℝ) / ((wps.length : ℝ) - 1))
  else if i = 0 then (s : ℝ)
  else (s : ℝ) + ((e : ℝ) - (s : ℝ)) * (cumDist wps i / totalDist wps)

/-- A waypoint of a constructed mission in the back-fill model: rational
coordinates, real (still optional in type, always present in fact)
timestamp. -/
structure WaypointR where
  x : ℚ
  y : ℚ
  z : ℚ
  time : Option ℝ

/-- Model of `Mission._assign_waypoint_times_if_needed`: runs (and then rewrites
every waypoint's time) exactly when some waypoint time is missing;
otherwise the waypoints pass through with their caller-supplied times. -/
noncomputable def assign_waypoint_times_if_needed (wps : List WaypointIn)
    (s e : ℚ) : List WaypointR :=
  if wps.any (fun w => w.time.isNone) then
    (List.range wps.length).map (fun i =>
      ⟨(wps.getD i default).x, (wps.getD i default).y,
       (wps.getD i default).z, some (backfillTime wps s e i)⟩)
  else
    wps.map (fun w => ⟨w.x, w.y, w.z, w.time.map (fun q => (q : ℝ))⟩)

/-- A constructed mission in the back-fill model. -/
structure MissionR where
  drone_id : String
  waypoints : List WaypointR
  start_time : ℚ
  end_time : ℚ

/-- Model of `Mission.__init__`: validation (non-empty id, at least two waypoints,
`start_time < end_time`; `none` models the raised `ValueError`) followed by
the one-time waypoint-time back-fill. -/
noncomputable def Mission.make (drone_id : String) (wps : List WaypointIn)
    (s e : ℚ) : Option MissionR :=
  if drone_id = "" then none
  else if wps.length < 2 then none
  else if e ≤ s then none
  else some ⟨drone_id, assign_waypoint_times_if_needed wps s e, s, e⟩

/-- The documented Mission invariant (spec section 3): every waypoint has a
concrete time, the times are non-decreasing along the sequence, all lie in
`[start_time, end_time]`, the first is `start_time` and the last is
`end_time` exactly. -/
def missionTimesOK (m : MissionR) : Prop :=
  ∃ ts : List ℝ,
    m.waypoints.map (fun w => w.time) = ts.map some ∧
    ts.Chain' (· ≤ ·) ∧
    (∀ u ∈ ts, (m.start_time : ℝ) ≤ u ∧ u ≤ (m.end_time : ℝ)) ∧
    ts.head? = some ((m.start_time : ℚ) : ℝ) ∧
    ts.getLast? = some ((m.end_time : ℚ) : ℝ)

/-- Counterexample to claim C2: the constructor accepts waypoints whose
caller-supplied times are arbitrary — here times 100 and 50 in a mission
windowed `[0, 10]` — and stores them unvalidated, so the resulting Mission
violates the invariant (its first waypoint's time is 100, not 0). -/
theorem mission_make_accepts_bad_times :
    Mission.make ("A") [⟨0, 0, 0, some 100⟩, ⟨1, 0, 0, some 50⟩] 0 10 =
      some ⟨"A", [⟨0, 0, 0, some ((100 : ℚ) : ℝ)⟩,
        ⟨1, 0, 0, some ((50 : ℚ) : ℝ)⟩], 0, 10⟩ ∧
    ¬ missionTimesOK ⟨"A", [⟨0, 0, 0, some ((100 : ℚ) : ℝ)⟩,
        ⟨1, 0, 0, some ((50 : ℚ) : ℝ)⟩], 0, 10⟩ := by
  constructor
  · unfold Mission.make
    rw [if_neg (by decide), if_neg (by decide), if_neg (by decide)]
    unfold assign_waypoint_times_if_needed
    rw [if_neg (by decide)]
    rfl
  · rintro ⟨ts, hmap, hchain, hmem, hhead, hlastt⟩
    dsimp only at hmap hhead
    have h1 := congrArg List.head? hmap
    rw [List.head?_map, List.head?_map, hhead] at h1
    simp at h1

/-- Segment lengths are non-negative. -/
theorem distIn_nonneg (a b : WaypointIn) : 0 ≤ distIn a b :=
  Real.sqrt_nonneg _

/-- Cumulative distances are non-negative. -/
theorem cumDist_nonneg (wps : List WaypointIn) : ∀ i, 0 ≤ cumDist wps i := by
  intro i
  induction i with
  | zero => exact le_refl 0
  | succ i ih => exact add_nonneg ih (distIn_nonneg _ _)

/-- Cumulative distances are monotone in the segment count. -/
theorem cumDist_mono (wps : List WaypointIn) :
    ∀ i j : ℕ, i ≤ j → cumDist wps i ≤ cumDist wps j := by
  intro i j hij
  induction j, hij using Nat.le_induction with
  | base => exact le_refl _
  | succ j hj ih =>
      exact le_trans ih (le_add_of_nonneg_right (distIn_nonneg _ _))

/-- Every back-filled time lies in `[start_time, end_time]`. -/
theorem backfillTime_bounds (wps : List WaypointIn) (s e : ℚ) (hse : s < e)
    (hn : 2 ≤ wps.length) :
    ∀ i, i < wps.length →
      (s : ℝ) ≤ backfillTime wps s e i ∧ backfillTime wps s e i ≤ (e : ℝ) := by
  intro i hi
  have hdur : (0 : ℝ) < (e : ℝ) - (s : ℝ) := by
    rw [sub_pos]
    exact_mod_cast hse
  have hsecast : (s : ℝ) ≤ (e : ℝ) := by exact_mod_cast le_of_lt hse
  unfold backfillTime
  by_cases h1 : i = wps.length - 1
  · rw [if_pos h1]
    exact ⟨hsecast, le_refl _⟩
  · rw [if_neg h1]
    by_cases h2 : totalDist wps = 0
    · rw [if_pos h2, if_neg (by omega : ¬ wps.length ≤ 1)]
      have hden : (0 : ℝ) < (wps.length : ℝ) - 1 := by
        have : (2 : ℝ) ≤ (wps.length : ℝ) := by exact_mod_cast hn
        linarith
      have hf0 : (0 : ℝ) ≤ (i : ℝ) / ((wps.length : ℝ) - 1) :=
        div_nonneg (by positivity) (le_of_lt hden)
      have hf1 : (i : ℝ) / ((wps.length : ℝ) - 1) ≤ 1 := by
        rw [div_le_one hden]
        have : (i : ℝ) + 1 ≤ (wps.length : ℝ) := by exact_mod_cast hi
        linarith
      constructor
      · nlinarith
      · nlinarith
    · rw [if_neg h2]
      by_cases h3 : i = 0
      · rw [if_pos h3]
        exact ⟨le_refl _, hsecast⟩
      · rw [if_neg h3]
        have htpos : 0 < totalDist wps :=
          lt_of_le_of_ne (cumDist_nonneg wps _) (Ne.symm h2)
        have hcle : cumDist wps i ≤ totalDist wps :=
          cumDist_mono wps i (wps.length - 1) (by omega)
        have hf0 : (0 : ℝ) ≤ cumDist wps i / totalDist wps :=
          div_nonneg (cumDist_nonneg wps i) (le_of_lt htpos)
        have hf1 : cumDist wps i / totalDist wps ≤ 1 := by
          rw [div_le_one htpos]
          exact hcle
        constructor
        · nlinarith
        · nlinarith

/-- The back-filled time of waypoint 0 is `start_time` (for at least two
waypoints). -/
theorem backfillTime_zero (wps : List WaypointIn) (s e : ℚ)
    (hn : 2 ≤ wps.length) : backfillTime wps s e 0 = (s : ℝ) := by
  unfold backfillTime
  rw [if_neg (by omega : ¬ (0 : ℕ) = wps.length - 1)]
  by_cases h2 : totalDist wps = 0
  · rw [if_pos h2, if_neg (by omega : ¬ wps.length ≤ 1)]
    simp
  · rw [if_neg h2, if_pos rfl]

/-- The back-filled time of the final waypoint is `end_time`. -/
theorem backfillTime_last (wps : List WaypointIn) (s e : ℚ) :
    backfillTime wps s e (wps.length - 1) = (e : ℝ) := by
  unfold backfillTime
  rw [if_pos rfl]

/-- Consecutive back-filled times are non-decreasing. -/
theorem backfillTime_chain (wps : List WaypointIn) (s e : ℚ) (hse : s < e)
    (hn : 2 ≤ wps.length) :
    ∀ i, i + 1 < wps.length →
      backfillTime wps s e i ≤ backfillTime wps s e (i + 1) := by
  intro i hi1
  have hdur : (0 : ℝ) < (e : ℝ) - (s : ℝ) := by
    rw [sub_pos]
    exact_mod_cast hse
  by_cases hlast : i + 1 = wps.length - 1
  · rw [hlast, backfillTime_last]
    exact (backfillTime_bounds wps s e hse hn i (by omega)).2
  · have hinot : ¬ i = wps.length - 1 := by omega
    unfold backfillTime
    rw [if_neg hinot, if_neg hlast]
    by_cases h2 : totalDist wps = 0
    · rw [if_pos h2, if_pos h2, if_neg (by omega : ¬ wps.length ≤ 1),
        if_neg (by omega : ¬ wps.length ≤ 1)]
      have hden : (0 : ℝ) < (wps.length : ℝ) - 1 := by
        have : (2 : ℝ) ≤ (wps.length : ℝ) := by exact_mod_cast hn
        linarith
      have hmono : (i : ℝ) / ((wps.length : ℝ) - 1) ≤
          ((i + 1 : ℕ) : ℝ) / ((wps.length : ℝ) - 1) := by
        apply div_le_div_of_nonneg_right ?_ (le_of_lt hden)
        exact_mod_cast Nat.le_succ i
      nlinarith
    · rw [if_neg h2, if_neg h2]
      have htpos : 0 < totalDist wps :=
        lt_of_le_of_ne (cumDist_nonneg wps _) (Ne.symm h2)
      by_cases h3 : i = 0
      · rw [if_pos h3]
        rw [if_neg (by omega : ¬ i + 1 = 0)]
        have hf0 : (0 : ℝ) ≤ cumDist wps (i + 1) / totalDist wps :=
          div_nonneg (cumDist_nonneg wps _) (le_of_lt htpos)
        nlinarith
      · rw [if_neg h3, if_neg (by omega : ¬ i + 1 = 0)]
        have hmono : cumDist wps i / totalDist wps ≤
            cumDist wps (i + 1) / totalDist wps := by
          apply div_le_div_of_nonneg_right ?_ (le_of_lt htpos)
          exact cumDist_mono wps i (i + 1) (Nat.le_succ i)
        nlinarith

/-- Claim C2 (amended): for every Mission the constructor accepts WHOSE
INPUT WAYPOINTS INCLUDE AT LEAST ONE MISSING TIME (so the back-fill runs),
the construction establishes the invariant: all waypoint times concrete,
non-decreasing, within `[start_time, end_time]`, first exactly
`start_time`, last exactly `end_time`.  (When the caller supplies every
time, the constructor stores them unvalidated and the invariant can fail —
see `mission_make_accepts_bad_times`.) -/
theorem mission_make_backfill_invariant (id : String)
    (wps : List WaypointIn) (s e : ℚ) (m : MissionR)
    (hnone : wps.any (fun w => w.time.isNone) = true)
    (hmk : Mission.make id wps s e = some m) :
    missionTimesOK m := by
  unfold Mission.make at hmk
  split_ifs at hmk with h1 h2 h3
  have hn : 2 ≤ wps.length := by omega
  have hse : s < e := not_le.mp h3
  obtain rfl : (⟨id, assign_waypoint_times_if_needed wps s e, s, e⟩ :
      MissionR) = m := Option.some.inj hmk
  obtain ⟨k, hk⟩ := Nat.exists_eq_succ_of_ne_zero
    (by omega : wps.length ≠ 0)
  refine ⟨(List.range wps.length).map (backfillTime wps s e),
    ?_, ?_, ?_, ?_, ?_⟩
  · dsimp only
    unfold assign_waypoint_times_if_needed
    rw [if_pos hnone, List.map_map, List.map_map]
    rfl
  · rw [List.chain'_map, hk, List.chain'_range_succ]
    intro i hi
    exact backfillTime_chain wps s e hse hn i (by omega)
  · intro u hu
    rw [List.mem_map] at hu
    obtain ⟨i, hi, rfl⟩ := hu
    rw [List.mem_range] at hi
    exact backfillTime_bounds wps s e hse hn i hi
  · rw [List.head?_map, hk, List.range_succ_eq_map]
    dsimp only [List.head?]
    simp [backfillTime_zero wps s e hn]
  · rw [List.getLast?_map, hk, List.range_succ, List.getLast?_concat]
    rw [show k = wps.length - 1 by omega]
    simp [backfillTime_last]

/-- Witness for the amended C2: two coincident waypoints without times in
the window `[0, 10]`; the back-fill distributes times evenly (0 and 10). -/
theorem mission_make_backfill_invariant_witness :
    ([⟨1, 2, 0, none⟩, ⟨1, 2, 0, none⟩] : List WaypointIn).any
      (fun w => w.time.isNone) = true ∧
    Mission.make ("A") [⟨1, 2, 0, none⟩, ⟨1, 2, 0, none⟩] 0 10 =
      some ⟨"A", [⟨1, 2, 0, some ((0 : ℚ) : ℝ)⟩,
        ⟨1, 2, 0, some ((10 : ℚ) : ℝ)⟩], 0, 10⟩ ∧
    missionTimesOK ⟨"A", [⟨1, 2, 0, some ((0 : ℚ) : ℝ)⟩,
        ⟨1, 2, 0, some ((10 : ℚ) : ℝ)⟩], 0, 10⟩ := by
  have htot : totalDist [⟨1, 2, 0, none⟩, ⟨1, 2, 0, none⟩] = 0 := by
    norm_num [totalDist, cumDist, distIn, distSqIn]
  have hmk : Mission.make ("A") [⟨1, 2, 0, none⟩, ⟨1, 2, 0, none⟩] 0 10 =
      some ⟨"A", [⟨1, 2, 0, some ((0 : ℚ) : ℝ)⟩,
        ⟨1, 2, 0, some ((10 : ℚ) : ℝ)⟩], 0, 10⟩ := by
    unfold Mission.make
    rw [if_neg (by decide), if_neg (by decide), if_neg (by decide)]
    unfold assign_waypoint_times_if_needed
    rw [if_pos (by decide)]
    have hb0 : backfillTime [⟨1, 2, 0, none⟩, ⟨1, 2, 0, none⟩] 0 10 0 =
        ((0 : ℚ) : ℝ) := by
      unfold backfillTime
      rw [if_neg (by decide), if_pos htot, if_neg (by decide)]
      norm_num
    have hb1 : backfillTime [⟨1, 2, 0, none⟩, ⟨1, 2, 0, none⟩] 0 10 1 =
        ((10 : ℚ) : ℝ) := by
      unfold backfillTime
      rw [if_pos (by decide)]
    rw [show List.range
        ([⟨1, 2, 0, none⟩, ⟨1, 2, 0, none⟩] : List WaypointIn).length =
        [0, 1] by decide]
    simp only [List.map, hb0, hb1]
    rfl
  exact ⟨by decide, hmk,
    mission_make_backfill_invariant ("A") _ 0 10 _ (by decide) hmk⟩

/-- Coordinate-equal waypoint lists agree at every (defaulted) index. -/
theorem getD_coords_eq (wps wps' : List WaypointIn)
    (hco : wps.map (fun w => (w.x, w.y, w.z)) =
      wps'.map (fun w => (w.x, w.y, w.z))) (i : ℕ) :
    ((wps.getD i default).x, (wps.getD i default).y,
      (wps.getD i default).z) =
    ((wps'.getD i default).x, (wps'.getD i default).y,
      (wps'.getD i default).z) := by
  have h := congrArg (fun l => l.getD i ((0 : ℚ), (0 : ℚ), (0 : ℚ))) hco
  dsimp only at h
  rw [show ((0 : ℚ), (0 : ℚ), (0 : ℚ)) =
    (fun w : WaypointIn => (w.x, w.y, w.z)) default from rfl] at h
  rw [List.getD_map, List.getD_map] at h
  exact h

/-- Cumulative distances depend only on the coordinates. -/
theorem cumDist_coords_eq (wps wps' : List WaypointIn)
    (hco : wps.map (fun w => (w.x, w.y, w.z)) =
      wps'.map (fun w => (w.x, w.y, w.z))) :
    ∀ i, cumDist wps i = cumDist wps' i := by
  intro i
  induction i with
  | zero => rfl
  | succ i ih =>
      simp only [cumDist]
      rw [ih]
      congr 1
      unfold distIn distSqIn
      have h1 := getD_coords_eq wps wps' hco i
      have h2 := getD_coords_eq wps wps' hco (i + 1)
      simp only [Prod.mk.injEq] at h1 h2
      rw [h1.1, h1.2.1, h1.2.2, h2.1, h2.2.1, h2.2.2]

/-- Claim C10: the back-fill branch is taken exactly when some input time
is missing.  With every time supplied, the waypoints (and their times)
pass through unchanged, with no validation.  When some time is missing,
EVERY output time is the recomputed `backfillTime` (caller-supplied times
on the other waypoints are discarded): the output is the same for any two
coordinate-equal input lists that both trigger the back-fill. -/
theorem assign_times_frame :
    ∀ (wps wps' : List WaypointIn) (s e : ℚ),
      (wps.all (fun w => w.time.isSome) = true →
        assign_waypoint_times_if_needed wps s e =
          wps.map (fun w => ⟨w.x, w.y, w.z,
            w.time.map (fun q => (q : ℝ))⟩)) ∧
      (wps.any (fun w => w.time.isNone) = true →
        assign_waypoint_times_if_needed wps s e =
          (List.range wps.length).map (fun i =>
            ⟨(wps.getD i default).x, (wps.getD i default).y,
             (wps.getD i default).z, some (backfillTime wps s e i)⟩) ∧
        (wps.map (fun w => (w.x, w.y, w.z)) =
            wps'.map (fun w => (w.x, w.y, w.z)) →
          wps'.any (fun w => w.time.isNone) = true →
          assign_waypoint_times_if_needed wps s e =
            assign_waypoint_times_if_needed wps' s e)) := by
  intro wps wps' s e
  constructor
  · intro hall
    unfold assign_waypoint_times_if_needed
    rw [if_neg (by
      rw [List.any_eq_true]
      rintro ⟨w, hw, hwn⟩
      have hs := List.all_eq_true.mp hall w hw
      cases hw' : w.time with
      | none => rw [hw'] at hs; simp at hs
      | some q => rw [hw'] at hwn; simp at hwn)]
  · intro hany
    constructor
    · unfold assign_waypoint_times_if_needed
      rw [if_pos hany]
    · intro hco hany'
      have hlen : wps.length = wps'.length := by
        have h := congrArg List.length hco
        simpa using h
      have hbt : ∀ i, backfillTime wps s e i = backfillTime wps' s e i := by
        intro i
        unfold backfillTime totalDist
        rw [← hlen]
        simp only [← cumDist_coords_eq wps wps' hco]
      unfold assign_waypoint_times_if_needed
      rw [if_pos hany, if_pos hany', ← hlen]
      apply List.map_congr_left
      intro i _
      have h1 := getD_coords_eq wps wps' hco i
      simp only [Prod.mk.injEq] at h1
      rw [h1.1, h1.2.1, h1.2.2, hbt i]

/-- Witness for C10: one all-times-supplied list (untouched), and two
coordinate-equal lists with a missing time each (identical back-filled
output). -/
theorem assign_times_frame_witness :
    (([⟨1, 2, 3, some 4⟩, ⟨5, 6, 7, some 8⟩] : List WaypointIn).all
        (fun w => w.time.isSome) = true ∧
      assign_waypoint_times_if_needed [⟨1, 2, 3, some 4⟩, ⟨5, 6, 7, some 8⟩]
          0 10 =
        ([⟨1, 2, 3, some 4⟩, ⟨5, 6, 7, some 8⟩] : List WaypointIn).map
          (fun w => ⟨w.x, w.y, w.z, w.time.map (fun q => (q : ℝ))⟩)) ∧
    (assign_waypoint_times_if_needed [⟨0, 0, 0, none⟩, ⟨3, 4, 0, some 9⟩]
        0 10 =
      (List.range ([⟨0, 0, 0, none⟩, ⟨3, 4, 0, some 9⟩] :
          List WaypointIn).length).map (fun i =>
        ⟨(([⟨0, 0, 0, none⟩, ⟨3, 4, 0, some 9⟩] :
            List WaypointIn).getD i default).x,
         (([⟨0, 0, 0, none⟩, ⟨3, 4, 0, some 9⟩] :
            List WaypointIn).getD i default).y,
         (([⟨0, 0, 0, none⟩, ⟨3, 4, 0, some 9⟩] :
            List WaypointIn).getD i default).z,
         some (backfillTime [⟨0, 0, 0, none⟩, ⟨3, 4, 0, some 9⟩] 0 10 i)⟩) ∧
      assign_waypoint_times_if_needed [⟨0, 0, 0, none⟩, ⟨3, 4, 0, some 9⟩]
          0 10 =
        assign_waypoint_times_if_needed [⟨0, 0, 0, some 7⟩, ⟨3, 4, 0, none⟩]
          0 10) :=
  ⟨⟨by decide,
    (assign_times_frame [⟨1, 2, 3, some 4⟩, ⟨5, 6, 7, some 8⟩]
      [] 0 10).1 (by decide)⟩,
   ⟨((assign_times_frame [⟨0, 0, 0, none⟩, ⟨3, 4, 0, some 9⟩]
      [⟨0, 0, 0, some 7⟩, ⟨3, 4, 0, none⟩] 0 10).2 (by decide)).1,
    ((assign_times_frame [⟨0, 0, 0, none⟩, ⟨3, 4, 0, some 9⟩]
      [⟨0, 0, 0, some 7⟩, ⟨3, 4, 0, none⟩] 0 10).2 (by decide)).2
      (by decide) (by decide)⟩⟩
